import Mathlib

/-!
Shallow embedding of the SEAL wrapper crate (`seal/src/encoder.rs`,
`seal/src/evaluator.rs`).  The crate is a thin FFI layer over a native
homomorphic-encryption backend; the backend's arithmetic itself is out of
scope for the repository, so its semantics are modelled from the spec
(CRT batching view: a plaintext is a length-N vector of residues mod T,
ciphertext operations act slot-wise).  The wrapper-level control flow
(error propagation, the capacity check before `set_len`, in-place entry
points aliasing source and destination handles, fresh destination
allocation) is translated from the Rust source.
-/

namespace Seal

/-- Error kinds of the wrapper's error taxonomy (spec section 7). -/
inductive Error
  | ParameterError
  | InvalidArgument
  | InvalidOperation
  | KeyMismatch
  | BackendFailure
  | AllocationOverflow
  deriving DecidableEq, Repr

/-- Result of running a wrapper entry point: a value, a recoverable error
returned to the caller, or a process abort (Rust `panic!` / `expect`). -/
inductive Outcome (α : Type)
  | ok : α → Outcome α
  | err : Error → Outcome α
  | aborted : Outcome α
  deriving DecidableEq, Repr

/-- Immutable description of the ring: degree `N`, plaintext modulus `T`,
and the derived batching flag (`T ≡ 1 mod 2N`). -/
structure Context where
  N : Nat
  T : Nat
  batching_enabled : Bool
  deriving DecidableEq, Repr

/-- A plaintext in the batching view: the length-`N` vector of slot
residues mod `T`, plus the NTT-state flag. -/
structure Plaintext where
  ctx : Context
  slots : List Nat
  is_ntt : Bool
  deriving DecidableEq, Repr

/-- A ciphertext: the slot vector it decrypts to, its representation
`size` (number of ring polynomials, ≥ 2 for well-formed ciphertexts),
NTT-state flag, and modulus-chain level. -/
structure Ciphertext where
  ctx : Context
  slots : List Nat
  size : Nat
  is_ntt : Bool
  chain_level : Nat
  deriving DecidableEq, Repr

/-- Relinearization keys: bound to one context; `count` key components
(`k − 1` keys are needed to reduce a size-`k+1` ciphertext to size 2). -/
structure RelinearizationKeys where
  ctx : Context
  count : Nat
  deriving DecidableEq, Repr

/-- Galois keys: bound to one context; the generator used by the wrapper
creates keys supporting all row/column rotations. -/
structure GaloisKeys where
  ctx : Context
  deriving DecidableEq, Repr

/-- A well-formed ciphertext: full slot vector, residues reduced mod `T`,
representation size at least the minimum 2. -/
def Ciphertext.wf (c : Ciphertext) : Prop :=
  c.slots.length = c.ctx.N ∧ (∀ x ∈ c.slots, x < c.ctx.T) ∧ 2 ≤ c.size

instance (c : Ciphertext) : Decidable c.wf := by
  unfold Ciphertext.wf; infer_instance

/-! ## BatchEncoder (`seal/src/encoder.rs`) -/

/-- The `BFVEncoder` wrapper: holds the backend handle, which is bound to
the context it was created from.  It caches nothing else. -/
structure BFVEncoder where
  ctx : Context
  deriving DecidableEq, Repr

/-- `BFVEncoder::new`: backend `BatchEncoder_Create` fails unless the
context supports batching (modelled from the spec: construction fails
with a parameter error when `batching_enabled` is false). -/
def BFVEncoder.new (ctx : Context) : Except Error BFVEncoder :=
  if ctx.batching_enabled then .ok ⟨ctx⟩ else .error .ParameterError

/-- `BFVEncoder::get_slot_count`, translated from the source: the backend
call reports the slot count (= N, modelled from the spec); a backend
error would hit the `.expect` and abort.  On a constructed encoder the
backend query always succeeds. -/
def BFVEncoder.get_slot_count (e : BFVEncoder) : Outcome Nat :=
  match (Except.ok e.ctx.N : Except Error Nat) with
  | .ok n => .ok n
  | .error _ => .aborted

/-- Drop the trailing zero slots of a slot vector: the backend-defined
significant length reported by `decode` (spec: "may be < slot_count if
trailing slots are all zero"). -/
def dropTrailingZeros (l : List Nat) : List Nat :=
  (l.reverse.dropWhile (· == 0)).reverse

/-- `Modelled from the spec:` the backend `BatchEncoder_Encode1`
(unsigned).  Fails `InvalidArgument` if the vector is longer than the
slot count or any value is out of the domain `[0, T)`; otherwise the
plaintext's slot vector is the input padded with zeros to length `N`. -/
def encodeUnsignedBackend (ctx : Context) (data : List Nat) :
    Except Error Plaintext :=
  if ctx.N < data.length then .error .InvalidArgument
  else if data.any (fun x => ctx.T ≤ x) then .error .InvalidArgument
  else .ok ⟨ctx, data ++ List.replicate (ctx.N - data.length) 0, false⟩

/-- `BFVEncoder::encode_unsigned`, translated from the source: allocate a
plaintext, call the backend, propagate its error with `?`. -/
def BFVEncoder.encode_unsigned (e : BFVEncoder) (data : List Nat) :
    Except Error Plaintext :=
  encodeUnsignedBackend e.ctx data

/-- `Modelled from the spec:` the backend `BatchEncoder_Decode1`
(unsigned): fails `InvalidOperation` unless the plaintext is a valid
member of the batching image (length-`N` vector of residues `< T` in
coefficient form); otherwise reports the significant slots (trailing
zeros dropped) and their count. -/
def decodeUnsignedBackend (ctx : Context) (p : Plaintext) :
    Except Error (Nat × List Nat) :=
  if p.ctx = ctx ∧ p.slots.length = ctx.N ∧ (∀ x ∈ p.slots, x < ctx.T) ∧
      p.is_ntt = false then
    .ok ((dropTrailingZeros p.slots).length, dropTrailingZeros p.slots)
  else .error .InvalidOperation

/-- The wrapper body of `BFVEncoder::decode_unsigned` (source lines
131–155), given the reserved capacity and the backend's reply: propagate
a backend error; then, if the reported size exceeds the reserved
capacity, the source runs `panic!("Allocation overflow ...")` — a
process abort, not a returned error; otherwise commit the reported
length with `set_len`. -/
def decodeWrapper (capacity : Nat) (backend : Except Error (Nat × List Nat)) :
    Outcome (List Nat) :=
  match backend with
  | .error e => .err e
  | .ok (size, data) =>
    if capacity < size then .aborted
    else .ok (data.take size)

/-- `BFVEncoder::decode_unsigned`: reserves `get_slot_count` capacity,
calls the backend, then runs the capacity check above. -/
def BFVEncoder.decode_unsigned (e : BFVEncoder) (p : Plaintext) :
    Outcome (List Nat) :=
  decodeWrapper e.ctx.N (decodeUnsignedBackend e.ctx p)

/-- Signed domain of the spec: `[−T/2, T/2)`, stated without division as
`−T ≤ 2x ∧ 2x < T`. -/
def signedInRange (T : Nat) (x : Int) : Prop :=
  -(T : Int) ≤ 2 * x ∧ 2 * x < (T : Int)

instance (T : Nat) (x : Int) : Decidable (signedInRange T x) := by
  unfold signedInRange; infer_instance

/-- Residue mod `T` of a signed value (centered reinterpretation onto the
same underlying residues). -/
def toResidue (T : Nat) (x : Int) : Nat :=
  (x % (T : Int)).toNat

/-- Centered reinterpretation of a residue: values `≥ T/2` represent
negatives. -/
def fromResidue (T : Nat) (r : Nat) : Int :=
  if 2 * r < T then (r : Int) else (r : Int) - (T : Int)

/-- `Modelled from the spec:` the backend `BatchEncoder_Encode2`
(signed): same as unsigned but values live in the centered domain
`[−T/2, T/2)` and map onto the same residues. -/
def encodeSignedBackend (ctx : Context) (data : List Int) :
    Except Error Plaintext :=
  if ctx.N < data.length then .error .InvalidArgument
  else if data.any (fun x => ¬ signedInRange ctx.T x) then
    .error .InvalidArgument
  else .ok ⟨ctx, (data.map (toResidue ctx.T)) ++
      List.replicate (ctx.N - data.length) 0, false⟩

/-- `BFVEncoder::encode_signed`, translated from the source. -/
def BFVEncoder.encode_signed (e : BFVEncoder) (data : List Int) :
    Except Error Plaintext :=
  encodeSignedBackend e.ctx data

/-- `Modelled from the spec:` the backend `BatchEncoder_Decode2`
(signed): validity check as in the unsigned case, then the centered
reinterpretation of the significant slots. -/
def decodeSignedBackend (ctx : Context) (p : Plaintext) :
    Except Error (Nat × List Int) :=
  if p.ctx = ctx ∧ p.slots.length = ctx.N ∧ (∀ x ∈ p.slots, x < ctx.T) ∧
      p.is_ntt = false then
    .ok ((dropTrailingZeros p.slots).length,
      (dropTrailingZeros p.slots).map (fromResidue ctx.T))
  else .error .InvalidOperation

/-- The wrapper body of `BFVEncoder::decode_signed` (source lines
169–193): identical control flow to the unsigned wrapper. -/
def decodeWrapperSigned (capacity : Nat)
    (backend : Except Error (Nat × List Int)) : Outcome (List Int) :=
  match backend with
  | .error e => .err e
  | .ok (size, data) =>
    if capacity < size then .aborted
    else .ok (data.take size)

/-- `BFVEncoder::decode_signed`. -/
def BFVEncoder.decode_signed (e : BFVEncoder) (p : Plaintext) :
    Outcome (List Int) :=
  decodeWrapperSigned e.ctx.N (decodeSignedBackend e.ctx p)

/-! ## Evaluator (`seal/src/evaluator.rs`)

The arithmetic kernels are backend calls; their slot-wise semantics is
modelled from the spec (batched operations act element-wise mod `T`).
The wrapper entry points (out-of-place allocating a fresh destination,
in-place passing the operand handle as destination) are translated from
the source. -/

/-- Slot-wise addition mod `T` (spec: batched ops act element-wise). -/
def vecAdd (T : Nat) (xs ys : List Nat) : List Nat :=
  List.zipWith (fun x y => (x + y) % T) xs ys

/-- Slot-wise subtraction mod `T` (operands assumed reduced mod `T`). -/
def vecSub (T : Nat) (xs ys : List Nat) : List Nat :=
  List.zipWith (fun x y => (x + (T - y)) % T) xs ys

/-- Slot-wise negation mod `T`. -/
def vecNeg (T : Nat) (xs : List Nat) : List Nat :=
  xs.map (fun x => (T - x) % T)

/-- Slot-wise multiplication mod `T`. -/
def vecMul (T : Nat) (xs ys : List Nat) : List Nat :=
  List.zipWith (fun x y => x * y % T) xs ys

/-- `Modelled from the spec:` backend `Evaluator_Negate`: size and NTT
state unchanged, slots negated mod `T`; no failure beyond context
mismatch (none possible for the unary case). -/
def ctNegate (a : Ciphertext) : Except Error Ciphertext :=
  .ok { a with slots := vecNeg a.ctx.T a.slots }

/-- `Modelled from the spec:` backend `Evaluator_Add`: requires identical
context and identical NTT state (else `InvalidOperation`); result size
is `max` of the operand sizes; slots add element-wise mod `T`. -/
def ctAdd (a b : Ciphertext) : Except Error Ciphertext :=
  if a.ctx = b.ctx ∧ a.is_ntt = b.is_ntt then
    .ok { a with slots := vecAdd a.ctx.T a.slots b.slots,
                 size := max a.size b.size }
  else .error .InvalidOperation

/-- `Modelled from the spec:` backend `Evaluator_Sub`. -/
def ctSub (a b : Ciphertext) : Except Error Ciphertext :=
  if a.ctx = b.ctx ∧ a.is_ntt = b.is_ntt then
    .ok { a with slots := vecSub a.ctx.T a.slots b.slots,
                 size := max a.size b.size }
  else .error .InvalidOperation

/-- `Modelled from the spec:` backend `Evaluator_Multiply`: both operands
must be in coefficient form (`is_ntt = false`) and share the context;
result size is `size_a + size_b − 1`; slots multiply element-wise. -/
def ctMultiply (a b : Ciphertext) : Except Error Ciphertext :=
  if a.ctx = b.ctx ∧ a.is_ntt = false ∧ b.is_ntt = false then
    .ok { a with slots := vecMul a.ctx.T a.slots b.slots,
                 size := a.size + b.size - 1 }
  else .error .InvalidOperation

/-- `Modelled from the spec:` backend `Evaluator_Square`: as multiply
with both operands the same, size `2·size − 1`. -/
def ctSquare (a : Ciphertext) : Except Error Ciphertext :=
  ctMultiply a a

/-- `Modelled from the spec:` backend `Evaluator_AddPlain`: the plaintext
must share the ciphertext's context and NTT state. -/
def ctAddPlain (a : Ciphertext) (b : Plaintext) : Except Error Ciphertext :=
  if a.ctx = b.ctx ∧ a.is_ntt = b.is_ntt then
    .ok { a with slots := vecAdd a.ctx.T a.slots b.slots }
  else .error .InvalidOperation

/-- `Modelled from the spec:` backend `Evaluator_SubPlain`. -/
def ctSubPlain (a : Ciphertext) (b : Plaintext) : Except Error Ciphertext :=
  if a.ctx = b.ctx ∧ a.is_ntt = b.is_ntt then
    .ok { a with slots := vecSub a.ctx.T a.slots b.slots }
  else .error .InvalidOperation

/-- `Modelled from the spec:` backend `Evaluator_MultiplyPlain`. -/
def ctMultiplyPlain (a : Ciphertext) (b : Plaintext) :
    Except Error Ciphertext :=
  if a.ctx = b.ctx ∧ a.is_ntt = false ∧ b.is_ntt = false then
    .ok { a with slots := vecMul a.ctx.T a.slots b.slots }
  else .error .InvalidOperation

/-- `Modelled from the spec:` backend `Evaluator_ModSwitchToNext1`: size
unchanged, chain level decreases by one; `InvalidOperation` if already
at the last level. -/
def ctModSwitchToNext (a : Ciphertext) : Except Error Ciphertext :=
  if a.chain_level = 0 then .error .InvalidOperation
  else .ok { a with chain_level := a.chain_level - 1 }

/-- `Modelled from the spec:` backend `Evaluator_Relinearize`: reducing a
size-`k+1` ciphertext to the minimum size 2 needs `k − 1` keys, i.e.
`count ≥ size − 2`; with insufficient key material it fails
`KeyMismatch`; otherwise a pure representation change: slots (hence the
decryption) unchanged, size reset to 2. -/
def ctRelinearize (a : Ciphertext) (rk : RelinearizationKeys) :
    Except Error Ciphertext :=
  if rk.ctx ≠ a.ctx then .error .InvalidOperation
  else if rk.count + 2 < a.size then .error .KeyMismatch
  else .ok { a with size := 2 }

/-- Left-rotation offset for a row of length `half`: `steps` positive
rotates left, negative rotates right, reduced mod `half`. -/
def rotOffset (half : Nat) (steps : Int) : Nat :=
  ((steps % (half : Int) + half) % half).toNat

/-- Rotate each of the two rows of the `2 × (N/2)` slot matrix cyclically
left by `steps` (negative = right). -/
def rotateRowsSlots (N : Nat) (steps : Int) (l : List Nat) : List Nat :=
  (l.take (N / 2)).rotate (rotOffset (N / 2) steps) ++
    (l.drop (N / 2)).rotate (rotOffset (N / 2) steps)

/-- `Modelled from the spec:` backend `Evaluator_RotateRows`: requires
Galois keys bound to the same context; valid range `|steps| ≤ N/2 − 1`
(`steps = 0` is the identity), out of range fails `InvalidArgument`. -/
def ctRotateRows (a : Ciphertext) (steps : Int) (gk : GaloisKeys) :
    Except Error Ciphertext :=
  if gk.ctx ≠ a.ctx then .error .InvalidOperation
  else if a.ctx.N / 2 - 1 < steps.natAbs then .error .InvalidArgument
  else .ok { a with slots := rotateRowsSlots a.ctx.N steps a.slots }

/-- `Modelled from the spec:` backend `Evaluator_RotateColumns`: swaps
the two rows of the slot matrix. -/
def ctRotateColumns (a : Ciphertext) (gk : GaloisKeys) :
    Except Error Ciphertext :=
  if gk.ctx ≠ a.ctx then .error .InvalidOperation
  else .ok { a with slots := a.slots.drop (a.ctx.N / 2) ++
                             a.slots.take (a.ctx.N / 2) }

/-- The `Evaluator` wrapper: a backend handle bound to its context. -/
structure Evaluator where
  ctx : Context
  deriving DecidableEq, Repr

/-- The BFV scheme evaluator wraps (derefs to) the generic evaluator. -/
structure BFVEvaluator where
  toEvaluator : Evaluator
  deriving DecidableEq, Repr

/-- `Evaluator::add`: allocates a fresh destination and calls the
backend on the two sources. -/
def Evaluator.add (_e : Evaluator) (a b : Ciphertext) :
    Except Error Ciphertext :=
  ctAdd a b

/-- `Evaluator::add_inplace`: the same backend call with `a`'s handle
passed as the destination; the returned value is `a`'s new contents. -/
def Evaluator.add_inplace (_e : Evaluator) (a b : Ciphertext) :
    Except Error Ciphertext :=
  ctAdd a b

/-- `Evaluator::add_many`, translated from the source wrapper plus the
spec's reduction semantics: the backend fails `InvalidArgument` on an
empty list, otherwise folds addition over the list. -/
def Evaluator.add_many (_e : Evaluator) (l : List Ciphertext) :
    Except Error Ciphertext :=
  match l with
  | [] => .error .InvalidArgument
  | c :: cs => cs.foldlM (fun acc x => ctAdd acc x) c

/-- `BFVEvaluator::relinearize` (out-of-place; the in-place variant runs
the same backend call with the source handle as destination). -/
def BFVEvaluator.relinearize (_e : BFVEvaluator) (a : Ciphertext)
    (rk : RelinearizationKeys) : Except Error Ciphertext :=
  ctRelinearize a rk

/-- `BFVEvaluator::relinearize_inplace`. -/
def BFVEvaluator.relinearize_inplace (_e : BFVEvaluator) (a : Ciphertext)
    (rk : RelinearizationKeys) : Except Error Ciphertext :=
  ctRelinearize a rk

/-- `BFVEvaluator::rotate_rows`. -/
def BFVEvaluator.rotate_rows (_e : BFVEvaluator) (a : Ciphertext)
    (steps : Int) (gk : GaloisKeys) : Except Error Ciphertext :=
  ctRotateRows a steps gk

/-- `BFVEvaluator::rotate_columns`. -/
def BFVEvaluator.rotate_columns (_e : BFVEvaluator) (a : Ciphertext)
    (gk : GaloisKeys) : Except Error Ciphertext :=
  ctRotateColumns a gk

/-- `Modelled from the spec:` the external Encryptor: a freshly
encrypted ciphertext decrypts to the plaintext's slots, has size 2, the
scheme-default coefficient form, and sits at the top `lvl` of the
modulus chain. -/
def encrypt (p : Plaintext) (lvl : Nat) : Ciphertext :=
  ⟨p.ctx, p.slots, 2, p.is_ntt, lvl⟩

/-- `Modelled from the spec:` the external Decryptor: recovers the
plaintext the ciphertext stands for. -/
def decrypt (c : Ciphertext) : Plaintext :=
  ⟨c.ctx, c.slots, c.is_ntt⟩

/-- Operand compatibility for binary/reduction ciphertext operations:
bound to the given context, uniform NTT state, full reduced slot
vector. -/
def compatible (ctx0 : Context) (nt : Bool) (c : Ciphertext) : Prop :=
  c.ctx = ctx0 ∧ c.is_ntt = nt ∧ c.slots.length = ctx0.N ∧
    ∀ x ∈ c.slots, x < ctx0.T

instance (ctx0 : Context) (nt : Bool) (c : Ciphertext) :
    Decidable (compatible ctx0 nt c) := by
  unfold compatible; infer_instance

/-- The value in slot `i` of a ciphertext (0 past the end). -/
def slotAt (i : Nat) (c : Ciphertext) : Nat :=
  c.slots[i]?.getD 0

/-! ## Reference discipline of the in-place entry points

Rust enforces exclusive access at compile time only for `&mut`
parameters.  The table below records, for every in-place operation in
`seal/src/evaluator.rs`, how its destination parameter is taken in the
source: `exclusive` for `&mut Ciphertext`, `shared` for `&Ciphertext`
(or `&Plaintext`). -/

/-- How a Rust parameter is borrowed. -/
inductive RefKind
  | shared
  | exclusive
  deriving DecidableEq, Repr

/-- Signature record: an in-place entry point and the borrow kind of its
destination parameter. -/
structure InplaceSig where
  name : String
  dest : RefKind
  deriving DecidableEq, Repr

/-- Destination borrow kinds of all in-place operations, read off the
source signatures (`evaluator.rs`): `negate_inplace(a: &mut Ciphertext)`
line 90, `add_inplace(a: &mut Ciphertext)` line 117, `sub_inplace` line
196, `multiply_inplace` line 224, `square_inplace` line 263,
`mod_switch_to_next_inplace(a: &Ciphertext)` line 324,
`mod_switch_to_next_inplace_plaintext(a: &Plaintext)` line 354,
`exponentiate_inplace(a: &Ciphertext, ..)` line 398,
`add_plain_inplace(a: &mut Ciphertext, ..)` line 443,
`sub_plain_inplace` line 481, `multiply_plain_inplace` line 520,
`relinearize_inplace(a: &mut Ciphertext, ..)` line 563,
`rotate_rows_inplace(a: &Ciphertext, ..)` line 651,
`rotate_columns_inplace(a: &Ciphertext, ..)` line 713. -/
def inplaceSigs : List InplaceSig :=
  [⟨"negate_inplace", .exclusive⟩,
   ⟨"add_inplace", .exclusive⟩,
   ⟨"sub_inplace", .exclusive⟩,
   ⟨"multiply_inplace", .exclusive⟩,
   ⟨"square_inplace", .exclusive⟩,
   ⟨"mod_switch_to_next_inplace", .shared⟩,
   ⟨"mod_switch_to_next_inplace_plaintext", .shared⟩,
   ⟨"exponentiate_inplace", .shared⟩,
   ⟨"add_plain_inplace", .exclusive⟩,
   ⟨"sub_plain_inplace", .exclusive⟩,
   ⟨"multiply_plain_inplace", .exclusive⟩,
   ⟨"relinearize_inplace", .exclusive⟩,
   ⟨"rotate_rows_inplace", .shared⟩,
   ⟨"rotate_columns_inplace", .shared⟩]

/-! ## Handle heap: frame properties of the out-of-place operations

Each out-of-place entry point in the source allocates a fresh
destination (`Ciphertext::new()`) and passes the source handles as
read-only inputs and the new handle as the backend's destination
argument; the backend writes only the destination.  We model the handle
table explicitly to state this. -/

/-- A backend-managed object: ciphertext, plaintext, or key material. -/
inductive SealVal
  | ct : Ciphertext → SealVal
  | pt : Plaintext → SealVal
  | rk : RelinearizationKeys → SealVal
  | gk : GaloisKeys → SealVal
  deriving DecidableEq, Repr

/-- Backend handles. -/
abbrev Handle := Nat

/-- The table of live backend objects, plus the next fresh handle. -/
structure HeapState where
  next : Handle
  mem : Handle → Option SealVal

/-- Read a ciphertext handle (using a non-ciphertext or dead handle is a
usage error surfaced as a backend failure). -/
def HeapState.readCt (st : HeapState) (h : Handle) : Except Error Ciphertext :=
  match st.mem h with
  | some (.ct c) => .ok c
  | _ => .error .BackendFailure

/-- Read a plaintext handle. -/
def HeapState.readPt (st : HeapState) (h : Handle) : Except Error Plaintext :=
  match st.mem h with
  | some (.pt p) => .ok p
  | _ => .error .BackendFailure

/-- Read a relinearization-keys handle. -/
def HeapState.readRk (st : HeapState) (h : Handle) :
    Except Error RelinearizationKeys :=
  match st.mem h with
  | some (.rk k) => .ok k
  | _ => .error .BackendFailure

/-- Read a Galois-keys handle. -/
def HeapState.readGk (st : HeapState) (h : Handle) : Except Error GaloisKeys :=
  match st.mem h with
  | some (.gk k) => .ok k
  | _ => .error .BackendFailure

/-- Allocate a fresh handle (`Ciphertext::new()`) and bind it to `v`. -/
def HeapState.alloc (st : HeapState) (v : SealVal) : Handle × HeapState :=
  (st.next,
   ⟨st.next + 1, fun h => if h = st.next then some v else st.mem h⟩)

/-- The out-of-place evaluator operations, by their source handles. -/
inductive OutOp
  | negate (a : Handle)
  | add (a b : Handle)
  | sub (a b : Handle)
  | multiply (a b : Handle)
  | square (a : Handle)
  | add_plain (a b : Handle)
  | sub_plain (a b : Handle)
  | multiply_plain (a b : Handle)
  | rotate_rows (a : Handle) (steps : Int) (gkh : Handle)
  | rotate_columns (a : Handle) (gkh : Handle)
  | relinearize (a : Handle) (rkh : Handle)
  deriving DecidableEq, Repr

/-- Value computed by an out-of-place operation from its source handles:
the sources are only read. -/
def outResult (op : OutOp) (st : HeapState) : Except Error SealVal :=
  match op with
  | .negate a => do
    let ca ← st.readCt a
    let r ← ctNegate ca
    pure (.ct r)
  | .add a b => do
    let ca ← st.readCt a
    let cb ← st.readCt b
    let r ← ctAdd ca cb
    pure (.ct r)
  | .sub a b => do
    let ca ← st.readCt a
    let cb ← st.readCt b
    let r ← ctSub ca cb
    pure (.ct r)
  | .multiply a b => do
    let ca ← st.readCt a
    let cb ← st.readCt b
    let r ← ctMultiply ca cb
    pure (.ct r)
  | .square a => do
    let ca ← st.readCt a
    let r ← ctSquare ca
    pure (.ct r)
  | .add_plain a b => do
    let ca ← st.readCt a
    let pb ← st.readPt b
    let r ← ctAddPlain ca pb
    pure (.ct r)
  | .sub_plain a b => do
    let ca ← st.readCt a
    let pb ← st.readPt b
    let r ← ctSubPlain ca pb
    pure (.ct r)
  | .multiply_plain a b => do
    let ca ← st.readCt a
    let pb ← st.readPt b
    let r ← ctMultiplyPlain ca pb
    pure (.ct r)
  | .rotate_rows a steps gkh => do
    let ca ← st.readCt a
    let k ← st.readGk gkh
    let r ← ctRotateRows ca steps k
    pure (.ct r)
  | .rotate_columns a gkh => do
    let ca ← st.readCt a
    let k ← st.readGk gkh
    let r ← ctRotateColumns ca k
    pure (.ct r)
  | .relinearize a rkh => do
    let ca ← st.readCt a
    let k ← st.readRk rkh
    let r ← ctRelinearize ca k
    pure (.ct r)

/-- Run an out-of-place operation as the source wrapper does: allocate a
fresh destination, let the backend compute from the sources and write
the destination; on a backend error the fresh object is dropped and the
error returned. -/
def runOut (op : OutOp) (st : HeapState) :
    Except Error (Handle × HeapState) :=
  match outResult op st with
  | .error e => .error e
  | .ok v => .ok (st.alloc v)

/-! ## Concrete sample objects (used to evaluate the theorems) -/

/-- A small sample context: `N = 8`, `T = 17`, batching enabled. -/
def ctxW : Context := ⟨8, 17, true⟩

/-- Sample encoder over `ctxW`. -/
def encW : BFVEncoder := ⟨ctxW⟩

/-- Sample evaluator over `ctxW`. -/
def evW : Evaluator := ⟨ctxW⟩

/-- Sample BFV evaluator over `ctxW`. -/
def bevW : BFVEvaluator := ⟨evW⟩

/-- Sample Galois keys over `ctxW`. -/
def gkW : GaloisKeys := ⟨ctxW⟩

/-- Sample relinearization keys over `ctxW` (one key component). -/
def rkW : RelinearizationKeys := ⟨ctxW, 1⟩

/-- Sample size-2 ciphertext over `ctxW`. -/
def ctW : Ciphertext := ⟨ctxW, [1, 2, 3, 4, 5, 6, 7, 8], 2, false, 0⟩

/-- A second sample size-2 ciphertext over `ctxW`. -/
def ctW2 : Ciphertext := ⟨ctxW, [8, 7, 6, 5, 4, 3, 2, 1], 2, false, 0⟩

/-- Sample size-3 ciphertext over `ctxW` (product of two size-2). -/
def ctW3 : Ciphertext := ⟨ctxW, [1, 2, 3, 4, 5, 6, 7, 8], 3, false, 0⟩

/-- Sample handle heap: ciphertexts `ctW`, `ctW2` at handles 0, 1. -/
def stW : HeapState :=
  ⟨2, fun h => if h = 0 then some (.ct ctW)
       else if h = 1 then some (.ct ctW2) else none⟩

/-! ## Theorems -/

/-- C7: `get_slot_count` is a pure query with no failure mode: on every
successfully constructed encoder it returns the slot count `N` of the
encoder's context — never an error and never an abort, and it touches
no state. -/
theorem get_slot_count_pure (ctx : Context) (e : BFVEncoder)
    (h : BFVEncoder.new ctx = .ok e) :
    e.get_slot_count = Outcome.ok ctx.N := by
  unfold BFVEncoder.new at h
  split at h
  · cases h
    rfl
  · cases h

/-- Evaluation of C7 on the sample encoder. -/
theorem get_slot_count_pure_witness :
    BFVEncoder.get_slot_count encW = Outcome.ok 8 :=
  get_slot_count_pure ctxW encW rfl

/-- C2 (failing input): when the backend-reported output length (8193)
exceeds the reserved capacity (`slot_count` = 8192), both decode
wrappers execute `panic!` — a process abort — rather than returning the
recoverable `AllocationOverflow` error the spec requires. -/
theorem decode_overflow_aborts :
    decodeWrapper 8192 (.ok (8193, List.replicate 8193 0)) =
      Outcome.aborted ∧
    decodeWrapperSigned 8192 (.ok (8193, List.replicate 8193 0)) =
      Outcome.aborted ∧
    (Outcome.aborted : Outcome (List Nat)) ≠
      Outcome.err Error.AllocationOverflow := by
  refine ⟨rfl, rfl, by simp⟩

/-- C9 counterexample: it is not the case that every in-place operation
takes its destination by exclusive (`&mut`) reference —
`mod_switch_to_next_inplace` (among others) takes `&Ciphertext`, so
compile-time exclusive access is not enforced for it. -/
theorem inplace_not_all_exclusive :
    ¬ ∀ s ∈ inplaceSigs, s.dest = RefKind.exclusive := by
  decide

/-- C9 amended: the destination is taken by exclusive `&mut` reference
for the negate/add/sub/multiply/square in-place variants, the
plain-operand in-place variants and `relinearize_inplace`; but
`mod_switch_to_next_inplace`, `mod_switch_to_next_inplace_plaintext`,
`exponentiate_inplace`, `rotate_rows_inplace` and
`rotate_columns_inplace` take the destination by shared reference, so
the host language's exclusive-reference discipline does not enforce
exclusive access for those five calls. -/
theorem inplace_borrow_partition :
    (inplaceSigs.filter (fun s => s.dest == RefKind.exclusive)).map
        InplaceSig.name =
      ["negate_inplace", "add_inplace", "sub_inplace", "multiply_inplace",
       "square_inplace", "add_plain_inplace", "sub_plain_inplace",
       "multiply_plain_inplace", "relinearize_inplace"] ∧
    (inplaceSigs.filter (fun s => s.dest == RefKind.shared)).map
        InplaceSig.name =
      ["mod_switch_to_next_inplace", "mod_switch_to_next_inplace_plaintext",
       "exponentiate_inplace", "rotate_rows_inplace",
       "rotate_columns_inplace"] := by
  constructor <;> rfl

/-- C5: with key material bound to the ciphertext's context,
relinearization of a well-sized ciphertext returns size 2, never
increases the size, and leaves the decrypted value unchanged (a pure
representation change); with insufficient key material it fails
`KeyMismatch`.  The in-place variant produces the same contents. -/
theorem relinearize_spec (e : BFVEvaluator) (c : Ciphertext)
    (rk : RelinearizationKeys) (hctx : rk.ctx = c.ctx) (hsz : 2 ≤ c.size) :
    (c.size ≤ rk.count + 2 →
      ∃ c2, e.relinearize c rk = .ok c2 ∧ decrypt c2 = decrypt c ∧
        c2.size = 2 ∧ c2.size ≤ c.size ∧
        e.relinearize_inplace c rk = .ok c2) ∧
    (rk.count + 2 < c.size →
      e.relinearize c rk = .error Error.KeyMismatch) := by
  constructor
  · intro hk
    refine ⟨{ c with size := 2 }, ?_, rfl, rfl, hsz, ?_⟩
    · unfold BFVEvaluator.relinearize ctRelinearize
      rw [if_neg (by simp [hctx]), if_neg (by omega)]
    · unfold BFVEvaluator.relinearize_inplace ctRelinearize
      rw [if_neg (by simp [hctx]), if_neg (by omega)]
  · intro hk
    unfold BFVEvaluator.relinearize ctRelinearize
    rw [if_neg (by simp [hctx]), if_pos (by omega)]

/-- Evaluation of C5 on a sample size-3 ciphertext with one key. -/
theorem relinearize_spec_witness :
    ∃ c2, BFVEvaluator.relinearize bevW ctW3 rkW = .ok c2 ∧
      decrypt c2 = decrypt ctW3 ∧ c2.size = 2 ∧ c2.size ≤ ctW3.size ∧
      BFVEvaluator.relinearize_inplace bevW ctW3 rkW = .ok c2 :=
  (relinearize_spec bevW ctW3 rkW rfl (by decide)).1 (by decide)

/-- C6: `rotate_rows` succeeds for every step count with
`|steps| ≤ N/2 − 1`, acts as the identity at `steps = 0`, and fails
`InvalidArgument` for every step count with `|steps| > N/2 − 1`. -/
theorem rotate_rows_step_range (e : BFVEvaluator) (c : Ciphertext)
    (gk : GaloisKeys) (s : Int) (hctx : gk.ctx = c.ctx) :
    (s.natAbs ≤ c.ctx.N / 2 - 1 → ∃ c2, e.rotate_rows c s gk = .ok c2) ∧
    e.rotate_rows c 0 gk = .ok c ∧
    (c.ctx.N / 2 - 1 < s.natAbs →
      e.rotate_rows c s gk = .error Error.InvalidArgument) := by
  refine ⟨?_, ?_, ?_⟩
  · intro hs
    unfold BFVEvaluator.rotate_rows ctRotateRows
    rw [if_neg (by simp [hctx]), if_neg (by omega)]
    exact ⟨_, rfl⟩
  · unfold BFVEvaluator.rotate_rows ctRotateRows
    rw [if_neg (by simp [hctx]), if_neg (by simp)]
    have hid : rotateRowsSlots c.ctx.N 0 c.slots = c.slots := by
      unfold rotateRowsSlots rotOffset
      simp [List.take_append_drop]
    rw [hid]
  · intro hs
    unfold BFVEvaluator.rotate_rows ctRotateRows
    rw [if_neg (by simp [hctx]), if_pos (by omega)]

/-- Evaluation of C6 on the sample ciphertext (`N/2 − 1 = 3`): steps 3
succeed, step 0 is the identity, steps 5 fail `InvalidArgument`. -/
theorem rotate_rows_step_range_witness :
    (∃ c2, BFVEvaluator.rotate_rows bevW ctW 3 gkW = .ok c2) ∧
    BFVEvaluator.rotate_rows bevW ctW 0 gkW = .ok ctW ∧
    BFVEvaluator.rotate_rows bevW ctW 5 gkW =
      .error Error.InvalidArgument := by
  refine ⟨(rotate_rows_step_range bevW ctW gkW 3 rfl).1 (by decide),
    (rotate_rows_step_range bevW ctW gkW 0 rfl).2.1,
    (rotate_rows_step_range bevW ctW gkW 5 rfl).2.2 (by decide)⟩

/-- C10: every out-of-place evaluator operation (negate, add, sub,
multiply, square, the plain-operand variants, rotations, relinearize)
that succeeds allocates its destination at a fresh handle — one holding
no existing object — and writes only that handle: every other handle,
in particular every source operand (ciphertext, plaintext or key), is
left unchanged. -/
theorem out_of_place_frame (op : OutOp) (st : HeapState) (d : Handle)
    (st2 : HeapState) (hfresh : st.mem st.next = none)
    (hrun : runOut op st = .ok (d, st2)) :
    d = st.next ∧ st.mem d = none ∧ (∃ v, st2.mem d = some v) ∧
    ∀ h, h ≠ d → st2.mem h = st.mem h := by
  unfold runOut at hrun
  cases hres : outResult op st with
  | error e =>
    rw [hres] at hrun
    cases hrun
  | ok v =>
    rw [hres] at hrun
    unfold HeapState.alloc at hrun
    injection hrun with hpair
    injection hpair with h1 h2
    subst h1
    subst h2
    refine ⟨rfl, hfresh, ⟨v, by simp⟩, ?_⟩
    intro h hne
    simp [hne]

/-- Evaluation of C10: adding the two sample ciphertexts on the sample
heap writes handle 2 (fresh) and leaves handles 0 and 1 unchanged. -/
theorem out_of_place_frame_witness :
    ∃ d st2, runOut (OutOp.add 0 1) stW = .ok (d, st2) ∧
      stW.mem d = none ∧ (∃ v, st2.mem d = some v) ∧
      ∀ h, h ≠ d → st2.mem h = stW.mem h := by
  obtain ⟨h1, h2, h3, h4⟩ :=
    out_of_place_frame (OutOp.add 0 1) stW _ _ rfl rfl
  exact ⟨_, _, rfl, h2, h3, h4⟩

/-- Cast form of the rotation offset when the row length is positive. -/
theorem rotOffset_cast (half : Nat) (hpos : 0 < half) (s : Int) :
    ((rotOffset half s : Nat) : Int) = (s % (half : Int) + half) % half := by
  unfold rotOffset
  rw [Int.toNat_of_nonneg]
  exact Int.emod_nonneg _ (by exact_mod_cast hpos.ne')

/-- Rotating by `s` and then by `−s` shifts by a multiple of the row
length. -/
theorem rotOffset_add_neg (half : Nat) (hpos : 0 < half) (s : Int) :
    (rotOffset half s + rotOffset half (-s)) % half = 0 := by
  have key : (((rotOffset half s + rotOffset half (-s)) : Nat) : Int) %
      ((half : Nat) : Int) = 0 := by
    push_cast [rotOffset_cast half hpos]
    have h1 : ((s % (half : Int) + half) % half) % half = s % half := by
      rw [Int.emod_emod_of_dvd _ dvd_rfl, Int.add_emod_self,
        Int.emod_emod_of_dvd _ dvd_rfl]
    have h2 : (((-s) % (half : Int) + half) % half) % half = (-s) % half := by
      rw [Int.emod_emod_of_dvd _ dvd_rfl, Int.add_emod_self,
        Int.emod_emod_of_dvd _ dvd_rfl]
    calc ((s % (half : Int) + half) % half +
            ((-s) % (half : Int) + half) % half) % half
        = (((s % (half : Int) + half) % half) % half +
            (((-s) % (half : Int) + half) % half) % half) % half :=
          Int.add_emod _ _ _
      _ = (s % (half : Int) + (-s) % half) % half := by rw [h1, h2]
      _ = (s + -s) % (half : Int) := (Int.add_emod _ _ _).symm
      _ = 0 := by simp
  exact_mod_cast key

/-- Row rotation by `s` followed by `−s` restores the slot vector. -/
theorem rotateRowsSlots_inv (N : Nat) (s : Int) (l : List Nat)
    (hlen : l.length = N) (hev : N % 2 = 0) (hpos : 0 < N) :
    rotateRowsSlots N (-s) (rotateRowsSlots N s l) = l := by
  have hhalf : 0 < N / 2 := by omega
  have ht : (l.take (N / 2)).length = N / 2 := by
    rw [List.length_take]; omega
  have hd : (l.drop (N / 2)).length = N / 2 := by
    rw [List.length_drop]; omega
  have hta : ((l.take (N / 2)).rotate (rotOffset (N / 2) s)).length =
      N / 2 := by rw [List.length_rotate]; exact ht
  unfold rotateRowsSlots
  rw [List.take_left' hta, List.drop_left' hta,
    List.rotate_rotate, List.rotate_rotate]
  have hz : ∀ m : List Nat, m.length = N / 2 →
      m.rotate (rotOffset (N / 2) s + rotOffset (N / 2) (-s)) = m := by
    intro m hm
    rw [← List.rotate_mod, hm, rotOffset_add_neg _ hhalf, List.rotate_zero]
  rw [hz _ ht, hz _ hd, List.take_append_drop]

/-- Swapping the two rows twice restores the slot vector. -/
theorem swapHalves_inv (N : Nat) (l : List Nat)
    (hlen : l.length = N) (hev : N % 2 = 0) :
    (l.drop (N / 2) ++ l.take (N / 2)).drop (N / 2) ++
      (l.drop (N / 2) ++ l.take (N / 2)).take (N / 2) = l := by
  have hd : (l.drop (N / 2)).length = N / 2 := by
    rw [List.length_drop]; omega
  rw [List.take_left' hd, List.drop_left' hd, List.take_append_drop]

/-- C4: rotating rows by a valid step count `s` and then by `−s` returns
the original ciphertext, and applying `rotate_columns` twice returns
the original ciphertext (involution). -/
theorem rotation_inverse_laws (e : BFVEvaluator) (c : Ciphertext)
    (gk : GaloisKeys) (s : Int) (hctx : gk.ctx = c.ctx)
    (hlen : c.slots.length = c.ctx.N) (hev : c.ctx.N % 2 = 0)
    (hpos : 0 < c.ctx.N) (hs : s.natAbs ≤ c.ctx.N / 2 - 1) :
    (∃ c1, e.rotate_rows c s gk = .ok c1 ∧
       e.rotate_rows c1 (-s) gk = .ok c) ∧
    (∃ c2, e.rotate_columns c gk = .ok c2 ∧
       e.rotate_columns c2 gk = .ok c) := by
  constructor
  · refine ⟨{ c with slots := rotateRowsSlots c.ctx.N s c.slots }, ?_, ?_⟩
    · unfold BFVEvaluator.rotate_rows ctRotateRows
      rw [if_neg (by simp [hctx]), if_neg (by omega)]
    · have hna : ¬(c.ctx.N / 2 - 1 < (-s).natAbs) := by
        rw [Int.natAbs_neg]; omega
      unfold BFVEvaluator.rotate_rows ctRotateRows
      dsimp only
      rw [if_neg (by simp [hctx]), if_neg hna,
        rotateRowsSlots_inv c.ctx.N s c.slots hlen hev hpos]
  · refine ⟨{ c with slots := c.slots.drop (c.ctx.N / 2) ++ c.slots.take (c.ctx.N / 2) }, ?_, ?_⟩
    · unfold BFVEvaluator.rotate_columns ctRotateColumns
      rw [if_neg (by simp [hctx])]
    · unfold BFVEvaluator.rotate_columns ctRotateColumns
      dsimp only
      rw [if_neg (by simp [hctx]), swapHalves_inv c.ctx.N c.slots hlen hev]

/-- Evaluation of C4 on the sample ciphertext with step 2. -/
theorem rotation_inverse_laws_witness :
    (∃ c1, BFVEvaluator.rotate_rows bevW ctW 2 gkW = .ok c1 ∧
       BFVEvaluator.rotate_rows bevW c1 (-2) gkW = .ok ctW) ∧
    (∃ c2, BFVEvaluator.rotate_columns bevW ctW gkW = .ok c2 ∧
       BFVEvaluator.rotate_columns bevW c2 gkW = .ok ctW) :=
  rotation_inverse_laws bevW ctW gkW 2 rfl (by decide) (by decide)
    (by decide) (by decide)

/-- Leading zeros drop away under `dropWhile`. -/
theorem dropWhile_zeros_append (k : Nat) (l : List Nat) :
    List.dropWhile (· == 0) (List.replicate k 0 ++ l) =
      List.dropWhile (· == 0) l := by
  induction k with
  | zero => rfl
  | succ n ih => simp [List.replicate_succ, ih]

/-- Trailing padding zeros do not change the significant slots. -/
theorem dropTrailingZeros_append_zeros (l : List Nat) (k : Nat) :
    dropTrailingZeros (l ++ List.replicate k 0) = dropTrailingZeros l := by
  unfold dropTrailingZeros
  rw [List.reverse_append, List.reverse_replicate, dropWhile_zeros_append]

/-- Every slot vector is its significant slots followed by zeros. -/
theorem exists_dropTrailingZeros_decomp (l : List Nat) :
    ∃ m, l = dropTrailingZeros l ++ List.replicate m 0 := by
  refine ⟨(l.reverse.takeWhile (· == 0)).length, ?_⟩
  have hall : ∀ x ∈ l.reverse.takeWhile (· == 0), x = 0 := by
    intro x hx
    simpa using List.mem_takeWhile_imp hx
  have hrep : l.reverse.takeWhile (· == 0) =
      List.replicate (l.reverse.takeWhile (· == 0)).length 0 :=
    List.eq_replicate_of_mem hall
  calc l = l.reverse.reverse := (List.reverse_reverse l).symm
    _ = (l.reverse.takeWhile (· == 0) ++
          l.reverse.dropWhile (· == 0)).reverse := by
        rw [List.takeWhile_append_dropWhile]
    _ = (l.reverse.dropWhile (· == 0)).reverse ++
          (l.reverse.takeWhile (· == 0)).reverse := by
        rw [List.reverse_append]
    _ = dropTrailingZeros l ++
          List.replicate (l.reverse.takeWhile (· == 0)).length 0 := by
        rw [dropTrailingZeros]
        rw [hrep, List.reverse_replicate]
        simp

/-- The significant slots are no longer than the slot vector. -/
theorem dropTrailingZeros_length_le (l : List Nat) :
    (dropTrailingZeros l).length ≤ l.length := by
  obtain ⟨m, hm⟩ := exists_dropTrailingZeros_decomp l
  conv_rhs => rw [hm]
  simp

/-- A successful backend reply within capacity commits the reported
length. -/
theorem decodeWrapper_ok (cap : Nat) (data : List Nat)
    (h : data.length ≤ cap) :
    decodeWrapper cap (.ok (data.length, data)) = Outcome.ok data := by
  simp only [decodeWrapper]
  rw [if_neg (by omega), List.take_length]

/-- Signed analogue of `decodeWrapper_ok`. -/
theorem decodeWrapperSigned_ok (cap : Nat) (data : List Int)
    (h : data.length ≤ cap) :
    decodeWrapperSigned cap (.ok (data.length, data)) = Outcome.ok data := by
  simp only [decodeWrapperSigned]
  rw [if_neg (by omega), List.take_length]

/-- The signed residue is reduced mod `T`. -/
theorem toResidue_lt (T : Nat) (hT : 0 < T) (x : Int) : toResidue T x < T := by
  unfold toResidue
  have hTz : ((T : Nat) : Int) ≠ 0 := by exact_mod_cast hT.ne'
  have h1 : x % (T : Int) < T := Int.emod_lt_of_pos x (by exact_mod_cast hT)
  have h0 : 0 ≤ x % (T : Int) := Int.emod_nonneg x hTz
  omega

/-- The centered reinterpretation inverts the residue map on the signed
domain `[−T/2, T/2)`. -/
theorem fromResidue_toResidue (T : Nat) (x : Int)
    (h : signedInRange T x) : fromResidue T (toResidue T x) = x := by
  obtain ⟨h1, h2⟩ := h
  have hTpos : (0 : Int) < T := by omega
  unfold fromResidue toResidue
  rcases le_or_lt 0 x with hx | hx
  · have hemod : x % (T : Int) = x := Int.emod_eq_of_lt hx (by omega)
    rw [hemod, if_pos (by omega)]
    exact Int.toNat_of_nonneg hx
  · have hemod : x % (T : Int) = x + T := by
      calc x % (T : Int) = (x + T) % T := Int.add_emod_self.symm
        _ = x + T := Int.emod_eq_of_lt (by omega) (by omega)
    rw [hemod, if_neg (by omega)]
    omega

/-- Residue 0 reads back as the signed value 0. -/
theorem fromResidue_zero (T : Nat) (hT : 0 < T) : fromResidue T 0 = 0 := by
  unfold fromResidue
  rw [if_pos (by omega)]
  rfl

/-- C1: decoding the plaintext produced by encoding a valid vector
returns the vector itself up to truncation of its trailing zero slots —
the decoded vector extended by trailing zeros is the input — for both
the unsigned and the signed variant. -/
theorem encode_decode_roundtrip (e : BFVEncoder) (du : List Nat)
    (ds : List Int) (hT : 0 < e.ctx.T)
    (hlu : du.length ≤ e.ctx.N) (hvu : ∀ x ∈ du, x < e.ctx.T)
    (hls : ds.length ≤ e.ctx.N) (hvs : ∀ x ∈ ds, signedInRange e.ctx.T x) :
    (∃ p w m, e.encode_unsigned du = .ok p ∧
       e.decode_unsigned p = Outcome.ok w ∧
       du = w ++ List.replicate m 0) ∧
    (∃ p w m, e.encode_signed ds = .ok p ∧
       e.decode_signed p = Outcome.ok w ∧
       ds = w ++ List.replicate m (0 : Int)) := by
  constructor
  · obtain ⟨m, hm⟩ := exists_dropTrailingZeros_decomp du
    refine ⟨⟨e.ctx, du ++ List.replicate (e.ctx.N - du.length) 0, false⟩,
      dropTrailingZeros du, m, ?_, ?_, hm⟩
    · have hno : ¬(du.any (fun x => e.ctx.T ≤ x) = true) := by
        simp only [List.any_eq_true, decide_eq_true_eq]
        push_neg
        exact fun x hx => hvu x hx
      unfold BFVEncoder.encode_unsigned encodeUnsignedBackend
      rw [if_neg (by omega), if_neg hno]
    · have hlenpad :
          (du ++ List.replicate (e.ctx.N - du.length) 0).length = e.ctx.N := by
        simp only [List.length_append, List.length_replicate]
        omega
      have hvals :
          ∀ x ∈ du ++ List.replicate (e.ctx.N - du.length) 0,
            x < e.ctx.T := by
        intro x hx
        rcases List.mem_append.mp hx with h | h
        · exact hvu x h
        · rw [List.eq_of_mem_replicate h]; exact hT
      have hdtz := dropTrailingZeros_append_zeros du (e.ctx.N - du.length)
      have hcap :
          (dropTrailingZeros
            (du ++ List.replicate (e.ctx.N - du.length) 0)).length ≤
            e.ctx.N := by
        have := dropTrailingZeros_length_le
          (du ++ List.replicate (e.ctx.N - du.length) 0)
        omega
      unfold BFVEncoder.decode_unsigned
      have hback : decodeUnsignedBackend e.ctx
          ⟨e.ctx, du ++ List.replicate (e.ctx.N - du.length) 0, false⟩ =
          .ok ((dropTrailingZeros
              (du ++ List.replicate (e.ctx.N - du.length) 0)).length,
            dropTrailingZeros
              (du ++ List.replicate (e.ctx.N - du.length) 0)) := by
        unfold decodeUnsignedBackend
        rw [if_pos ⟨rfl, hlenpad, hvals, rfl⟩]
      rw [hback, decodeWrapper_ok _ _ hcap, hdtz]
  · obtain ⟨m, hm⟩ :=
      exists_dropTrailingZeros_decomp (ds.map (toResidue e.ctx.T))
    refine ⟨⟨e.ctx, ds.map (toResidue e.ctx.T) ++
        List.replicate (e.ctx.N - ds.length) 0, false⟩,
      (dropTrailingZeros (ds.map (toResidue e.ctx.T))).map
        (fromResidue e.ctx.T), m, ?_, ?_, ?_⟩
    · have hno : ¬(ds.any (fun x => ¬signedInRange e.ctx.T x) = true) := by
        simp only [List.any_eq_true, decide_eq_true_eq]
        push_neg
        exact fun x hx => hvs x hx
      unfold BFVEncoder.encode_signed encodeSignedBackend
      rw [if_neg (by omega), if_neg hno]
    · have hlenpad : (ds.map (toResidue e.ctx.T) ++
          List.replicate (e.ctx.N - ds.length) 0).length = e.ctx.N := by
        simp only [List.length_append, List.length_replicate,
          List.length_map]
        omega
      have hvals : ∀ x ∈ ds.map (toResidue e.ctx.T) ++
          List.replicate (e.ctx.N - ds.length) 0, x < e.ctx.T := by
        intro x hx
        rcases List.mem_append.mp hx with h | h
        · obtain ⟨y, _, hy⟩ := List.mem_map.mp h
          rw [← hy]
          exact toResidue_lt e.ctx.T hT y
        · rw [List.eq_of_mem_replicate h]; exact hT
      have hdtz := dropTrailingZeros_append_zeros
        (ds.map (toResidue e.ctx.T)) (e.ctx.N - ds.length)
      have hcap : (dropTrailingZeros (ds.map (toResidue e.ctx.T) ++
          List.replicate (e.ctx.N - ds.length) 0)).length ≤ e.ctx.N := by
        have := dropTrailingZeros_length_le (ds.map (toResidue e.ctx.T) ++
          List.replicate (e.ctx.N - ds.length) 0)
        omega
      unfold BFVEncoder.decode_signed
      have hback : decodeSignedBackend e.ctx
          ⟨e.ctx, ds.map (toResidue e.ctx.T) ++
            List.replicate (e.ctx.N - ds.length) 0, false⟩ =
          .ok ((dropTrailingZeros (ds.map (toResidue e.ctx.T) ++
              List.replicate (e.ctx.N - ds.length) 0)).length,
            (dropTrailingZeros (ds.map (toResidue e.ctx.T) ++
              List.replicate (e.ctx.N - ds.length) 0)).map
              (fromResidue e.ctx.T)) := by
        unfold decodeSignedBackend
        rw [if_pos ⟨rfl, hlenpad, hvals, rfl⟩]
      have hcap2 : ((dropTrailingZeros (ds.map (toResidue e.ctx.T) ++
          List.replicate (e.ctx.N - ds.length) 0)).map
            (fromResidue e.ctx.T)).length ≤ e.ctx.N := by
        rw [List.length_map]; exact hcap
      have hw := decodeWrapperSigned_ok e.ctx.N
        ((dropTrailingZeros (ds.map (toResidue e.ctx.T) ++
          List.replicate (e.ctx.N - ds.length) 0)).map
            (fromResidue e.ctx.T)) hcap2
      rw [hback]
      rw [List.length_map] at hw
      rw [hw, hdtz]
    · have hmap := congrArg (List.map (fromResidue e.ctx.T)) hm
      rw [List.map_append, List.map_map, List.map_replicate] at hmap
      rw [fromResidue_zero e.ctx.T hT] at hmap
      have hid : ds.map (fromResidue e.ctx.T ∘ toResidue e.ctx.T) = ds := by
        have : ∀ x ∈ ds,
            (fromResidue e.ctx.T ∘ toResidue e.ctx.T) x = x := by
          intro x hx
          exact fromResidue_toResidue e.ctx.T x (hvs x hx)
        calc ds.map (fromResidue e.ctx.T ∘ toResidue e.ctx.T)
            = ds.map id := List.map_congr_left this
          _ = ds := List.map_id ds
      rw [hid] at hmap
      exact hmap

/-- Evaluation of C1: round trip of an unsigned and a signed sample
vector (with trailing zeros) on the sample encoder. -/
theorem encode_decode_roundtrip_witness :
    (∃ p w m, BFVEncoder.encode_unsigned encW [3, 0, 5, 0] = .ok p ∧
       BFVEncoder.decode_unsigned encW p = Outcome.ok w ∧
       [3, 0, 5, 0] = w ++ List.replicate m 0) ∧
    (∃ p w m, BFVEncoder.encode_signed encW [-8, 4, 0] = .ok p ∧
       BFVEncoder.decode_signed encW p = Outcome.ok w ∧
       [-8, 4, 0] = w ++ List.replicate m (0 : Int)) :=
  encode_decode_roundtrip encW [3, 0, 5, 0] [-8, 4, 0] (by decide)
    (by decide) (by decide) (by decide) (by decide)

/-- Indexing a `zipWith` of two long-enough lists. -/
theorem getD_zipWith (f : Nat → Nat → Nat) (xs ys : List Nat) (i : Nat)
    (hx : i < xs.length) (hy : i < ys.length) :
    (List.zipWith f xs ys)[i]?.getD 0 = f (xs[i]?.getD 0) (ys[i]?.getD 0) := by
  induction xs generalizing ys i with
  | nil => simp at hx
  | cons a as ih =>
    cases ys with
    | nil => simp at hy
    | cons b bs =>
      cases i with
      | zero => simp
      | succ n =>
        simp only [List.zipWith_cons_cons, List.getElem?_cons_succ]
        exact ih bs n (by simpa using hx) (by simpa using hy)

/-- Slots of a compatible ciphertext are reduced mod `T`. -/
theorem slotAt_lt (ctx0 : Context) (nt : Bool) (c : Ciphertext)
    (hc : compatible ctx0 nt c) (i : Nat) (hi : i < ctx0.N) :
    slotAt i c < ctx0.T := by
  obtain ⟨_, _, hlen, hval⟩ := hc
  unfold slotAt
  have hil : i < c.slots.length := by omega
  rw [List.getElem?_eq_getElem hil, Option.getD_some]
  exact hval _ (List.getElem_mem hil)

/-- A valid vector encodes to its zero-padded slot vector. -/
theorem encode_unsigned_ok (e : BFVEncoder) (a : List Nat)
    (hl : a.length ≤ e.ctx.N) (hv : ∀ x ∈ a, x < e.ctx.T) :
    e.encode_unsigned a =
      .ok ⟨e.ctx, a ++ List.replicate (e.ctx.N - a.length) 0, false⟩ := by
  have hno : ¬(a.any (fun x => e.ctx.T ≤ x) = true) := by
    simp only [List.any_eq_true, decide_eq_true_eq]
    push_neg
    exact fun x hx => hv x hx
  unfold BFVEncoder.encode_unsigned encodeUnsignedBackend
  rw [if_neg (by omega), if_neg hno]

/-- Zero rows add to zero slot-wise. -/
theorem zipWith_addMod_zeros (T k : Nat) :
    List.zipWith (fun x y => (x + y) % T)
      (List.replicate k 0) (List.replicate k 0) = List.replicate k 0 := by
  induction k with
  | zero => rfl
  | succ n ih => simp [List.replicate_succ, ih]

/-- Backend addition of compatible ciphertexts succeeds, stays
compatible, and adds slot-wise mod `T`. -/
theorem ctAdd_compat (ctx0 : Context) (nt : Bool) (hT : 0 < ctx0.T)
    (x y : Ciphertext) (hx : compatible ctx0 nt x)
    (hy : compatible ctx0 nt y) :
    ∃ z, ctAdd x y = .ok z ∧ compatible ctx0 nt z ∧
      ∀ i, i < ctx0.N →
        slotAt i z = (slotAt i x + slotAt i y) % ctx0.T := by
  obtain ⟨hxc, hxn, hxl, hxv⟩ := hx
  obtain ⟨hyc, hyn, hyl, hyv⟩ := hy
  refine ⟨{ x with slots := vecAdd x.ctx.T x.slots y.slots, size := max x.size y.size }, ?_, ?_, ?_⟩
  · unfold ctAdd
    rw [if_pos ⟨by rw [hxc, hyc], by rw [hxn, hyn]⟩]
  · refine ⟨hxc, hxn, ?_, ?_⟩
    · show (vecAdd x.ctx.T x.slots y.slots).length = ctx0.N
      unfold vecAdd
      rw [List.length_zipWith]
      omega
    · intro v hv
      replace hv : v ∈ vecAdd x.ctx.T x.slots y.slots := hv
      obtain ⟨i, hil, hg⟩ := List.mem_iff_getElem.mp hv
      have hxi : i < x.slots.length := by
        unfold vecAdd at hil
        rw [List.length_zipWith] at hil
        omega
      have hyi : i < y.slots.length := by
        unfold vecAdd at hil
        rw [List.length_zipWith] at hil
        omega
      have hval := getD_zipWith (fun a b => (a + b) % x.ctx.T)
        x.slots y.slots i hxi hyi
      rw [show List.zipWith (fun a b => (a + b) % x.ctx.T) x.slots y.slots =
        vecAdd x.ctx.T x.slots y.slots from rfl] at hval
      rw [List.getElem?_eq_getElem hil, Option.getD_some, hg] at hval
      rw [hval, hxc]
      exact Nat.mod_lt _ hT
  · intro i hi
    show (vecAdd x.ctx.T x.slots y.slots)[i]?.getD 0 = _
    unfold vecAdd
    rw [getD_zipWith (fun a b => (a + b) % x.ctx.T) x.slots y.slots i
      (by omega) (by omega), hxc]
    rfl

/-- C3: decrypting the sum of the encryptions of two equal-length valid
vectors yields their element-wise sum mod `T` (with the unused slots
zero); the in-place variant computes the same contents for its
destination. -/
theorem add_homomorphism (ev : Evaluator) (e : BFVEncoder)
    (a b : List Nat) (lvl : Nat) (hlen : a.length = b.length)
    (hla : a.length ≤ e.ctx.N)
    (hva : ∀ x ∈ a, x < e.ctx.T) (hvb : ∀ x ∈ b, x < e.ctx.T) :
    ∃ pa pb c, e.encode_unsigned a = .ok pa ∧
      e.encode_unsigned b = .ok pb ∧
      ev.add (encrypt pa lvl) (encrypt pb lvl) = .ok c ∧
      (decrypt c).slots =
        List.zipWith (fun x y => (x + y) % e.ctx.T) a b ++
          List.replicate (e.ctx.N - a.length) 0 ∧
      ev.add_inplace (encrypt pa lvl) (encrypt pb lvl) = .ok c := by
  have hslots : vecAdd e.ctx.T
      (a ++ List.replicate (e.ctx.N - a.length) 0)
      (b ++ List.replicate (e.ctx.N - b.length) 0) =
      List.zipWith (fun x y => (x + y) % e.ctx.T) a b ++
        List.replicate (e.ctx.N - a.length) 0 := by
    unfold vecAdd
    rw [← hlen, List.zipWith_append _ _ _ _ _ hlen,
      zipWith_addMod_zeros]
  refine ⟨⟨e.ctx, a ++ List.replicate (e.ctx.N - a.length) 0, false⟩,
    ⟨e.ctx, b ++ List.replicate (e.ctx.N - b.length) 0, false⟩,
    { ctx := e.ctx,
      slots := List.zipWith (fun x y => (x + y) % e.ctx.T) a b ++
        List.replicate (e.ctx.N - a.length) 0,
      size := 2, is_ntt := false, chain_level := lvl },
    encode_unsigned_ok e a hla hva,
    encode_unsigned_ok e b (by omega) hvb, ?_, rfl, ?_⟩
  · unfold Evaluator.add ctAdd encrypt
    rw [if_pos ⟨rfl, rfl⟩]
    dsimp only
    rw [hslots]
    simp
  · unfold Evaluator.add_inplace ctAdd encrypt
    rw [if_pos ⟨rfl, rfl⟩]
    dsimp only
    rw [hslots]
    simp

/-- Evaluation of C3 on two length-3 sample vectors mod `T = 17`. -/
theorem add_homomorphism_witness :
    ∃ pa pb c,
      BFVEncoder.encode_unsigned encW [15, 2, 3] = .ok pa ∧
      BFVEncoder.encode_unsigned encW [8, 7, 16] = .ok pb ∧
      Evaluator.add evW (encrypt pa 0) (encrypt pb 0) = .ok c ∧
      (decrypt c).slots =
        List.zipWith (fun x y => (x + y) % encW.ctx.T)
          [15, 2, 3] [8, 7, 16] ++ List.replicate (encW.ctx.N - 3) 0 ∧
      Evaluator.add_inplace evW (encrypt pa 0) (encrypt pb 0) = .ok c :=
  add_homomorphism evW encW [15, 2, 3] [8, 7, 16] 0 (by decide)
    (by decide) (by decide) (by decide)

/-- Folding backend addition over a list of compatible ciphertexts
accumulates the slot-wise sum mod `T`. -/
theorem foldlM_ctAdd (ctx0 : Context) (nt : Bool) (hT : 0 < ctx0.T)
    (cs : List Ciphertext) :
    ∀ c0 : Ciphertext, compatible ctx0 nt c0 →
    (∀ c ∈ cs, compatible ctx0 nt c) →
    ∃ c, cs.foldlM (fun acc x => ctAdd acc x) c0 = .ok c ∧
      compatible ctx0 nt c ∧
      ∀ i, i < ctx0.N →
        slotAt i c = (slotAt i c0 + (cs.map (slotAt i)).sum) % ctx0.T := by
  induction cs with
  | nil =>
    intro c0 h0 _
    refine ⟨c0, rfl, h0, ?_⟩
    intro i hi
    simp [Nat.mod_eq_of_lt (slotAt_lt ctx0 nt c0 h0 i hi)]
  | cons x cs ih =>
    intro c0 h0 hcs
    obtain ⟨z, hz, hzc, hzs⟩ := ctAdd_compat ctx0 nt hT c0 x h0
      (hcs x (List.mem_cons_self x cs))
    obtain ⟨c, hc, hcc, hcsum⟩ := ih z hzc
      (fun d hd => hcs d (List.mem_cons_of_mem x hd))
    refine ⟨c, ?_, hcc, ?_⟩
    · rw [List.foldlM_cons, hz]
      simpa using hc
    · intro i hi
      rw [hcsum i hi, hzs i hi, List.map_cons, List.sum_cons,
        Nat.mod_add_mod, Nat.add_assoc]

/-- C8: `add_many` on the empty list fails `InvalidArgument`; on a
non-empty list of compatible ciphertexts it returns the slot-wise sum
of the whole list mod `T`, and the decrypted result is invariant under
any permutation of the list (the reduction is commutative and
associative). -/
theorem add_many_reduction (ev : Evaluator) (ctx0 : Context) (nt : Bool)
    (l l2 : List Ciphertext) (hT : 0 < ctx0.T)
    (hl : ∀ c ∈ l, compatible ctx0 nt c) (hne : l ≠ [])
    (hperm : l.Perm l2) :
    Evaluator.add_many ev [] = .error Error.InvalidArgument ∧
    ∃ c c2, ev.add_many l = .ok c ∧ ev.add_many l2 = .ok c2 ∧
      (∀ i, i < ctx0.N →
        slotAt i c = (l.map (slotAt i)).sum % ctx0.T) ∧
      decrypt c2 = decrypt c := by
  refine ⟨rfl, ?_⟩
  obtain ⟨c0, cs, rfl⟩ := List.exists_cons_of_ne_nil hne
  obtain ⟨c, hc, hcc, hcs⟩ := foldlM_ctAdd ctx0 nt hT cs c0
    (hl c0 (List.mem_cons_self c0 cs))
    (fun d hd => hl d (List.mem_cons_of_mem c0 hd))
  have hne2 : l2 ≠ [] := by
    intro h
    subst h
    exact List.cons_ne_nil c0 cs hperm.eq_nil
  obtain ⟨d0, ds, rfl⟩ := List.exists_cons_of_ne_nil hne2
  have hl2 : ∀ c ∈ d0 :: ds, compatible ctx0 nt c :=
    fun d hd => hl d (hperm.mem_iff.mpr hd)
  obtain ⟨c2, hc2, hcc2, hcs2⟩ := foldlM_ctAdd ctx0 nt hT ds d0
    (hl2 d0 (List.mem_cons_self d0 ds))
    (fun d hd => hl2 d (List.mem_cons_of_mem d0 hd))
  refine ⟨c, c2, hc, hc2, ?_, ?_⟩
  · intro i hi
    rw [hcs i hi, List.map_cons, List.sum_cons]
  · have hslots : c.slots = c2.slots := by
      obtain ⟨hcctx, hcnt, hclen, _⟩ := hcc
      obtain ⟨hc2ctx, hc2nt, hc2len, _⟩ := hcc2
      apply List.ext_getElem (by omega)
      intro i h1 h2
      have e1 := hcs i (by omega)
      have e2 := hcs2 i (by omega)
      have hsum : ((c0 :: cs).map (slotAt i)).sum =
          ((d0 :: ds).map (slotAt i)).sum :=
        (hperm.map (slotAt i)).sum_eq
      rw [List.map_cons, List.sum_cons, List.map_cons, List.sum_cons]
        at hsum
      unfold slotAt at e1 e2 hsum
      rw [List.getElem?_eq_getElem h1, Option.getD_some] at e1
      rw [List.getElem?_eq_getElem h2, Option.getD_some] at e2
      rw [e1, e2, hsum]
    have hctx : c.ctx = c2.ctx := by rw [hcc.1, hcc2.1]
    have hnt : c.is_ntt = c2.is_ntt := by rw [hcc.2.1, hcc2.2.1]
    unfold decrypt
    rw [hslots, hctx, hnt]

/-- Evaluation of C8: summing the two sample ciphertexts in both orders
gives equal decryptions, and the empty list fails. -/
theorem add_many_reduction_witness :
    Evaluator.add_many evW [] = .error Error.InvalidArgument ∧
    ∃ c c2, Evaluator.add_many evW [ctW, ctW2] = .ok c ∧
      Evaluator.add_many evW [ctW2, ctW] = .ok c2 ∧
      (∀ i, i < ctxW.N →
        slotAt i c = ([ctW, ctW2].map (slotAt i)).sum % ctxW.T) ∧
      decrypt c2 = decrypt c :=
  add_many_reduction evW ctxW false [ctW, ctW2] [ctW2, ctW] (by decide)
    (by decide) (by decide) (List.Perm.swap ctW2 ctW [])

end Seal
